import Mathlib

/-!
Shallow embedding of `src/honeycomb.rs` (honeycomb-client): the retrying
POST executor, the async query-result poller, the ordered and bounded
parallel aggregators, the authorization check and the dataset-slug filter,
together with theorems settling the specification claims.
-/

namespace Honeycomb

/-! ## Transport model

A single HTTP exchange, from the point of view of the `post` loop in
`honeycomb.rs`: the send itself may fail (propagated by `?`), the status
may be 429 (`TOO_MANY_REQUESTS`), or a response with some status and body
text arrives.  The transport is a function from the attempt index to the
response it produces on that attempt. -/

inductive TransportResp where
  | err (msg : String)
  | rateLimited
  | response (status : Nat) (body : String)
deriving DecidableEq, Repr

/-- Outcome of `post<T>`: `anyhow::Result<T>` with the distinct error
shapes the loop can produce. -/
inductive PostOutcome (T : Type) where
  | ok (t : T)
  | transportError (msg : String)
  | decodeError (status : Nat) (body : String)
  | tooManyRetries
deriving DecidableEq, Repr

/-- The body of `HoneyComb::post`, embedded: `retries` is the remaining
retry budget (the Rust `retries` variable), `i` the index of the next
transport attempt.  Returns the outcome together with the total number of
transport attempts made.  `decode` embeds `serde_json::from_str::<T>`. -/
def postLoop {T : Type} (transport : Nat → TransportResp) (decode : String → Option T) :
    Nat → Nat → PostOutcome T × Nat
  | 0, i => (PostOutcome.tooManyRetries, i)
  | retries + 1, i =>
    match transport i with
    | TransportResp.err m => (PostOutcome.transportError m, i + 1)
    | TransportResp.rateLimited => postLoop transport decode retries (i + 1)
    | TransportResp.response status body =>
      match decode body with
      | some t => (PostOutcome.ok t, i + 1)
      | none => (PostOutcome.decodeError status body, i + 1)

/-- `HoneyComb::post`: the loop starts with `retries = 12` and no attempts
made yet. -/
def post {T : Type} (transport : Nat → TransportResp) (decode : String → Option T) :
    PostOutcome T × Nat :=
  postLoop transport decode 12 0

/-- Behaviour of `postLoop` on a transport that rate-limits the first `N`
attempts after index `i` and then delivers a response: the loop either
reaches the response (when `N` fits inside the remaining budget) or runs
out of budget, having made exactly `retries` attempts. -/
lemma postLoop_rl_prefix {T : Type} (transport : Nat → TransportResp)
    (decode : String → Option T) (s : Nat) (b : String) :
    ∀ (retries N i : Nat),
      (∀ j, j < N → transport (i + j) = TransportResp.rateLimited) →
      transport (i + N) = TransportResp.response s b →
      postLoop transport decode retries i =
        if N < retries then
          (match decode b with
           | some t => (PostOutcome.ok t, i + N + 1)
           | none => (PostOutcome.decodeError s b, i + N + 1))
        else (PostOutcome.tooManyRetries, i + retries) := by
  intro retries
  induction retries with
  | zero =>
    intro N i _ _
    simp [postLoop]
  | succ r ih =>
    intro N i hpre hresp
    cases N with
    | zero =>
      have h0 : transport i = TransportResp.response s b := by simpa using hresp
      simp only [postLoop, h0]
      cases hdec : decode b <;> simp [hdec]
    | succ M =>
      have h0 : transport i = TransportResp.rateLimited := by
        simpa using hpre 0 (Nat.succ_pos M)
      have hpre' : ∀ j, j < M → transport (i + 1 + j) = TransportResp.rateLimited := by
        intro j hj
        have := hpre (j + 1) (Nat.succ_lt_succ hj)
        simpa [Nat.add_assoc, Nat.add_comm 1 j] using this
      have hresp' : transport (i + 1 + M) = TransportResp.response s b := by
        have : i + 1 + M = i + (M + 1) := by omega
        rw [this]; exact hresp
      have := ih M (i + 1) hpre' hresp'
      simp only [postLoop, h0, this]
      by_cases hlt : M < r
      · have hlt' : M + 1 < r + 1 := Nat.succ_lt_succ hlt
        have e1 : i + 1 + M + 1 = i + (M + 1) + 1 := by omega
        cases hdec : decode b <;> simp [hlt, hlt', hdec, e1]
      · have hlt' : ¬ M + 1 < r + 1 := fun h => hlt (Nat.lt_of_succ_lt_succ h)
        have e2 : i + 1 + r = i + (r + 1) := by omega
        simp [hlt, hlt', e2]

/-- C1: for the retrying request executor `post`, under a transport that
returns HTTP 429 for the first `N` attempts and then a decodable response,
the call succeeds iff `N < 12`, fails with `TooManyRetries` iff `N ≥ 12`,
and the number of transport attempts is `N + 1` in the first case and
exactly the initial budget `12` in the second (the budget starts at 12 and
is spent only on rate-limited responses). -/
theorem post_rate_limit_budget {T : Type} (transport : Nat → TransportResp)
    (decode : String → Option T) (N s : Nat) (b : String) (t : T)
    (hpre : ∀ j, j < N → transport j = TransportResp.rateLimited)
    (hresp : transport N = TransportResp.response s b)
    (hdec : decode b = some t) :
    ((post transport decode).1 = PostOutcome.ok t ↔ N < 12) ∧
    ((post transport decode).1 = PostOutcome.tooManyRetries ↔ 12 ≤ N) ∧
    (N < 12 → (post transport decode).2 = N + 1) ∧
    (12 ≤ N → (post transport decode).2 = 12) := by
  have hpre0 : ∀ j, j < N → transport (0 + j) = TransportResp.rateLimited := by
    simpa using hpre
  have hresp0 : transport (0 + N) = TransportResp.response s b := by simpa using hresp
  have h := postLoop_rl_prefix transport decode s b 12 N 0 hpre0 hresp0
  unfold post
  rw [h]
  by_cases hN : N < 12
  · simp [hN, hdec, Nat.not_le.mpr hN]
  · simp [hN, Nat.le_of_not_lt hN]

/-- Transport for the C1 witness: three 429s, then a good response. -/
def c1Transport : Nat → TransportResp := fun i =>
  if i < 3 then TransportResp.rateLimited else TransportResp.response 200 "ok"

/-- Decoder for the C1/C2 witnesses: accepts exactly the body "ok". -/
def c1Decode : String → Option Nat := fun s => if s = "ok" then some 7 else none

/-- Witness for C1 at `N = 3`. -/
theorem post_rate_limit_budget_witness :
    ((post c1Transport c1Decode).1 = PostOutcome.ok 7 ↔ 3 < 12) ∧
    ((post c1Transport c1Decode).1 = PostOutcome.tooManyRetries ↔ 12 ≤ 3) ∧
    (3 < 12 → (post c1Transport c1Decode).2 = 3 + 1) ∧
    (12 ≤ 3 → (post c1Transport c1Decode).2 = 12) :=
  post_rate_limit_budget c1Transport c1Decode 3 200 "ok" 7
    (by decide) (by decide) (by decide)

/-- C2: when the transport (after `N < 12` rate-limited responses) returns
a non-rate-limited response whose body fails to decode, `post` returns a
decode error immediately, with exactly `N + 1` transport attempts — the
decode failure is never retried. -/
theorem post_decode_failure_terminal {T : Type} (transport : Nat → TransportResp)
    (decode : String → Option T) (N s : Nat) (b : String)
    (hpre : ∀ j, j < N → transport j = TransportResp.rateLimited)
    (hresp : transport N = TransportResp.response s b)
    (hdec : decode b = none) (hN : N < 12) :
    post transport decode = (PostOutcome.decodeError s b, N + 1) := by
  have hpre0 : ∀ j, j < N → transport (0 + j) = TransportResp.rateLimited := by
    simpa using hpre
  have hresp0 : transport (0 + N) = TransportResp.response s b := by simpa using hresp
  have h := postLoop_rl_prefix transport decode s b 12 N 0 hpre0 hresp0
  unfold post
  rw [h]
  simp [hN, hdec]

/-- Transport for the C2 witness: a malformed body on the very first
attempt. -/
def c2Transport : Nat → TransportResp := fun _ => TransportResp.response 200 "garbage"

/-- Witness for C2 at `N = 0`: the decode error is returned after exactly
one transport attempt. -/
theorem post_decode_failure_terminal_witness :
    post c2Transport c1Decode = (PostOutcome.decodeError 200 "garbage", 0 + 1) :=
  post_decode_failure_terminal c2Transport c1Decode 0 200 "garbage"
    (by intro j hj; exact absurd hj (Nat.not_lt_zero j)) (by decide) (by decide) (by decide)

/-! ## JSON values and the async result poller

`get_group_by_variants` polls `get_query_results` (a `serde_json::Value`)
until the status reports `complete`.  We embed the fragment of
`serde_json::Value` the loop uses: string indexing (`value["k"]`, which
yields `Null` for missing keys and on non-objects), `as_bool`, `as_str`
and `as_array`. -/

inductive Json where
  | null
  | bool (b : Bool)
  | num (n : Int)
  | str (s : String)
  | arr (xs : List Json)
  | obj (fields : List (String × Json))

/-- `value[key]` for a string key: field lookup on objects, `Null`
otherwise (serde_json's non-panicking read index). -/
def Json.index : Json → String → Json
  | Json.obj fields, key => (fields.lookup key).getD Json.null
  | _, _ => Json.null

/-- `Value::as_bool`. -/
def Json.as_bool : Json → Option Bool
  | Json.bool b => some b
  | _ => none

/-- `Value::as_str`. -/
def Json.as_str : Json → Option String
  | Json.str s => some s
  | _ => none

/-- `Value::as_array`. -/
def Json.as_array : Json → Option (List Json)
  | Json.arr xs => some xs
  | _ => none

/-- The payload extraction inside the `complete` branch of
`get_group_by_variants`: iterate `value["data"]["results"]` (defaulting to
the empty array) and keep each row's `r["data"][column_id]` when it is a
string. -/
def extractResults (value : Json) (column_id : String) : List String :=
  (((value.index "data").index "results").as_array.getD []).filterMap
    (fun r => ((r.index "data").index column_id).as_str)

/-- Result of the poll loop.  `panicked` models the Rust panic from
`value["complete"].as_bool().unwrap()` when the flag is absent or not a
boolean; `fetchError` models a `get_query_results` error propagated by
`?`. -/
inductive PollOutcome where
  | fetchError (msg : String)
  | panicked
  | ok (results : List String)
deriving DecidableEq, Repr

/-- The poll loop of `get_group_by_variants`: `polls` is the remaining
poll budget, `n` the number of status fetches already made.  Returns the
outcome together with the total number of status fetches. -/
def pollLoop (fetch : Nat → Except String Json) (column_id : String) :
    Nat → Nat → PollOutcome × Nat
  | 0, n => (PollOutcome.ok [], n)
  | polls + 1, n =>
    match fetch n with
    | Except.error e => (PollOutcome.fetchError e, n + 1)
    | Except.ok value =>
      match (value.index "complete").as_bool with
      | none => (PollOutcome.panicked, n + 1)
      | some true => (PollOutcome.ok (extractResults value column_id), n + 1)
      | some false => pollLoop fetch column_id polls (n + 1)

/-- The poll phase of `get_group_by_variants`: budget 50, no fetches made
yet. -/
def pollForVariants (fetch : Nat → Except String Json) (column_id : String) :
    PollOutcome × Nat :=
  pollLoop fetch column_id 50 0

/-- If every status up to the budget reports not-complete, the loop makes
exactly `polls` fetches and returns the empty result list. -/
lemma pollLoop_never_complete (status : Nat → Json) (column_id : String) :
    ∀ (polls n : Nat),
      (∀ i, ((status i).index "complete").as_bool = some false) →
      pollLoop (fun i => Except.ok (status i)) column_id polls n =
        (PollOutcome.ok [], n + polls) := by
  intro polls
  induction polls with
  | zero => intro n _; simp [pollLoop]
  | succ p ih =>
    intro n hflag
    have := ih (n + 1) hflag
    simp only [pollLoop, hflag n, this, Prod.mk.injEq]
    exact ⟨trivial, by omega⟩

/-- If the first `m` statuses report not-complete and the `m`-th (0-based)
reports complete, the loop stops after exactly `m + 1` fetches with the
extracted payload, provided `m` is within the budget. -/
lemma pollLoop_completes (status : Nat → Json) (column_id : String) :
    ∀ (polls n m : Nat), m < polls →
      (∀ j, j < m → ((status (n + j)).index "complete").as_bool = some false) →
      ((status (n + m)).index "complete").as_bool = some true →
      pollLoop (fun i => Except.ok (status i)) column_id polls n =
        (PollOutcome.ok (extractResults (status (n + m)) column_id), n + m + 1) := by
  intro polls
  induction polls with
  | zero => intro n m hm; exact absurd hm (Nat.not_lt_zero m)
  | succ p ih =>
    intro n m hm hpre hflag
    cases m with
    | zero =>
      have h0 : ((status n).index "complete").as_bool = some true := by simpa using hflag
      simp [pollLoop, h0]
    | succ M =>
      have h0 : ((status n).index "complete").as_bool = some false := by
        simpa using hpre 0 (Nat.succ_pos M)
      have hpre' : ∀ j, j < M → ((status (n + 1 + j)).index "complete").as_bool = some false := by
        intro j hj
        have := hpre (j + 1) (Nat.succ_lt_succ hj)
        simpa [Nat.add_assoc, Nat.add_comm 1 j] using this
      have hflag' : ((status (n + 1 + M)).index "complete").as_bool = some true := by
        have e : n + 1 + M = n + (M + 1) := by omega
        rw [e]; exact hflag
      have := ih (n + 1) M (Nat.lt_of_succ_lt_succ hm) hpre' hflag'
      simp only [pollLoop, h0, this]
      have e : n + 1 + M = n + (M + 1) := by omega
      rw [e]

/-- C3: for the poll loop of `get_group_by_variants` under statuses that
always decode: if the job reports complete on the K-th fetch (1 ≤ K ≤ 50),
the loop returns the extracted payload after exactly K fetches; if the job
never reports complete, the loop returns the empty (best-available) result
list after exactly 50 fetches. -/
theorem poll_until_complete_budget (column_id : String) :
    (∀ (status : Nat → Json) (K : Nat), 1 ≤ K → K ≤ 50 →
      (∀ j, j < K - 1 → ((status j).index "complete").as_bool = some false) →
      ((status (K - 1)).index "complete").as_bool = some true →
      pollForVariants (fun i => Except.ok (status i)) column_id =
        (PollOutcome.ok (extractResults (status (K - 1)) column_id), K)) ∧
    (∀ (status : Nat → Json),
      (∀ i, ((status i).index "complete").as_bool = some false) →
      pollForVariants (fun i => Except.ok (status i)) column_id =
        (PollOutcome.ok [], 50)) := by
  constructor
  · intro status K hK1 hK50 hpre hflag
    have hm : K - 1 < 50 := by omega
    have h := pollLoop_completes status column_id 50 0 (K - 1) hm
      (by simpa using hpre) (by simpa using hflag)
    have e : 0 + (K - 1) + 1 = K := by omega
    unfold pollForVariants
    rw [h]
    simp only [Nat.zero_add, Prod.mk.injEq]
    exact ⟨trivial, by omega⟩
  · intro status hflag
    have h := pollLoop_never_complete status column_id 50 0 hflag
    unfold pollForVariants
    rw [h]

/-- Status sequence for the C3 witness: not complete once, then complete
with a one-row payload. -/
def c3Status : Nat → Json := fun i =>
  if i = 0 then Json.obj [("complete", Json.bool false)]
  else Json.obj [("complete", Json.bool true),
    ("data", Json.obj [("results",
      Json.arr [Json.obj [("data", Json.obj [("col", Json.str "v1")])]])])]

/-- Witness for C3 at `K = 2`: completion on the second fetch yields the
payload after exactly two fetches. -/
theorem poll_until_complete_budget_witness :
    pollForVariants (fun i => Except.ok (c3Status i)) "col" =
      (PollOutcome.ok (extractResults (c3Status 1) "col"), 2) ∧
    extractResults (c3Status 1) "col" = ["v1"] := by
  refine ⟨?_, by rfl⟩
  have h := (poll_until_complete_budget "col").1 c3Status 2 (by omega) (by omega)
    (by intro j hj; have hj0 : j = 0 := by omega
        subst hj0; rfl) (by rfl)
  simpa using h

/-- C4 counterexample: a status value with no "complete" field makes the
poll loop panic (the source calls `.unwrap()` on
`value["complete"].as_bool()`), so the extraction is not total over all
JSON status values. -/
theorem poll_complete_flag_panic_cex :
    pollForVariants (fun _ => Except.ok (Json.obj [])) "col" = (PollOutcome.panicked, 1) := by
  rfl

/-- C4 (amended): on a status whose "complete" flag is present, boolean
and true, the poller returns the extracted payload without any fatal
error, and absent or malformed payload sub-fields are treated as empty:
in particular a missing or non-array `data.results` yields the empty
result list.  (The "complete" flag itself, by contrast, must be a boolean:
see the counterexample.) -/
theorem poll_payload_extraction_total (value : Json) (column_id : String)
    (hflag : (value.index "complete").as_bool = some true) :
    pollForVariants (fun _ => Except.ok value) column_id =
      (PollOutcome.ok (extractResults value column_id), 1) ∧
    (((value.index "data").index "results").as_array = none →
      extractResults value column_id = []) := by
  constructor
  · have h := pollLoop_completes (fun _ => value) column_id 50 0 0 (by omega)
      (by intro j hj; exact absurd hj (Nat.not_lt_zero j)) (by simpa using hflag)
    unfold pollForVariants
    simpa using h
  · intro h
    unfold extractResults
    rw [h]
    rfl

/-- Status value for the C4 witness. -/
def c4Value : Json := Json.obj [("complete", Json.bool true)]

/-- Witness for C4 (amended) at a status carrying only the complete
flag. -/
theorem poll_payload_extraction_total_witness :
    pollForVariants (fun _ => Except.ok c4Value) "c" =
      (PollOutcome.ok (extractResults c4Value "c"), 1) ∧
    extractResults c4Value "c" = [] := by
  have h := poll_payload_extraction_total c4Value "c" (by rfl)
  exact ⟨h.1, h.2 (by rfl)⟩

/-! ## Ordered parallel aggregator (`process_datasets_columns`)

Each dataset's task fetches its columns (`list_all_columns`), filters them
by age and maps a failed fetch to the empty column list.  The tasks are
pushed into a `FuturesOrdered`, which yields results in push order no
matter in which order the underlying futures complete.  We model the
`FuturesOrdered` buffering explicitly: completions arrive in an arbitrary
schedule (a permutation of the task indices); completed results are held
back until all earlier tasks have been delivered. -/

/-- `Column` from `honeycomb.rs`; `last_written` is a UTC timestamp,
modelled in whole seconds. -/
structure Column where
  id : String
  key_name : String
  type : String
  description : String
  hidden : Bool
  last_written : Int
deriving DecidableEq, Repr

/-- `chrono::Duration::num_days` on a duration of `secs` seconds: whole
days, truncating toward zero. -/
def numDays (secs : Int) : Int := Int.tdiv secs 86400

/-- The async block pushed per dataset in `process_datasets_columns`:
fetch the columns, keep those written in the last `last_written` days, and
map a fetch error to the empty list. -/
def datasetTask (fetch : String → Except String (List Column)) (now last_written : Int)
    (dataset : String) : String × List Column :=
  match fetch dataset with
  | Except.ok columns =>
    (dataset, columns.filter (fun c => numDays (now - c.last_written) < last_written))
  | Except.error _ => (dataset, [])

/-- The delivery side of `FuturesOrdered`: starting from index `next`,
emit every consecutive result whose task has already completed (`done`). -/
def foDrain (results : List α) (done : List Nat) (next : Nat) : List α × Nat :=
  if h : next < results.length ∧ next ∈ done then
    let rest := foDrain results done (next + 1)
    (results.get ⟨next, h.1⟩ :: rest.1, rest.2)
  else ([], next)
termination_by results.length - next
decreasing_by omega

/-- The completion side of `FuturesOrdered`: process the completion
schedule one task at a time, draining deliverable results after each
completion. -/
def foRun (results : List α) : List Nat → List Nat → Nat → List α
  | [], _, _ => []
  | c :: cs, done, next =>
    let done' := c :: done
    let step := foDrain results done' next
    step.1 ++ foRun results cs done' step.2

/-- The sequence of `(dataset, columns)` pairs a `FuturesOrdered` hands to
the consumer when the tasks produce `results` and complete in the order
given by `schedule`. -/
def futuresOrderedOutput (results : List α) (schedule : List Nat) : List α :=
  foRun results schedule [] 0

lemma foDrain_spec (results : List α) (done : List Nat) :
    ∀ (next : Nat),
      (foDrain results done next).1 ++ results.drop (foDrain results done next).2 =
        results.drop next ∧
      next ≤ (foDrain results done next).2 ∧
      ((foDrain results done next).2 < results.length →
        (foDrain results done next).2 ∉ done) := by
  have key : ∀ (k next : Nat), results.length - next ≤ k →
      (foDrain results done next).1 ++ results.drop (foDrain results done next).2 =
        results.drop next ∧
      next ≤ (foDrain results done next).2 ∧
      ((foDrain results done next).2 < results.length →
        (foDrain results done next).2 ∉ done) := by
    intro k
    induction k with
    | zero =>
      intro next hk
      have hcond : ¬ (next < results.length ∧ next ∈ done) := by
        intro h; omega
      rw [foDrain, dif_neg hcond]
      exact ⟨rfl, Nat.le_refl next, fun h => absurd h (by omega)⟩
    | succ k ih =>
      intro next hk
      by_cases hcond : next < results.length ∧ next ∈ done
      · have hk' : results.length - (next + 1) ≤ k := by omega
        obtain ⟨h1, h2, h3⟩ := ih (next + 1) hk'
        have hdrop : results.drop next =
            results.get ⟨next, hcond.1⟩ :: results.drop (next + 1) :=
          List.drop_eq_getElem_cons hcond.1
        rw [foDrain, dif_pos hcond]
        refine ⟨?_, ?_, h3⟩
        · show results.get ⟨next, hcond.1⟩ :: ((foDrain results done (next + 1)).1 ++
              results.drop (foDrain results done (next + 1)).2) = results.drop next
          rw [h1]
          exact hdrop.symm
        · show next ≤ (foDrain results done (next + 1)).2
          omega
      · rw [foDrain, dif_neg hcond]
        exact ⟨rfl, Nat.le_refl next, fun h hmem => hcond ⟨h, hmem⟩⟩
  intro next
  exact key (results.length - next) next (Nat.le_refl _)

lemma foRun_spec (results : List α) :
    ∀ (cs done : List Nat) (next : Nat),
      (∀ i, next ≤ i → i < results.length → i ∈ cs ∨ i ∈ done) →
      (∀ c ∈ cs, c ∉ done) →
      cs.Nodup →
      (next < results.length → next ∉ done) →
      foRun results cs done next = results.drop next := by
  intro cs
  induction cs with
  | nil =>
    intro done next hcover _ _ hnext
    by_cases hlt : next < results.length
    · rcases hcover next (Nat.le_refl next) hlt with h | h
      · exact absurd h (List.not_mem_nil next)
      · exact absurd h (hnext hlt)
    · simp [foRun, List.drop_eq_nil_of_le (Nat.le_of_not_lt hlt)]
  | cons c cs ih =>
    intro done next hcover hdisj hnodup hnext
    obtain ⟨hdrain, hle, hfree⟩ := foDrain_spec results (c :: done) next
    set next' := (foDrain results (c :: done) next).2 with hnext'
    have hcover' : ∀ i, next' ≤ i → i < results.length → i ∈ cs ∨ i ∈ c :: done := by
      intro i hi hilen
      rcases hcover i (Nat.le_trans hle hi) hilen with h | h
      · rcases List.mem_cons.mp h with h | h
        · exact Or.inr (h ▸ List.mem_cons_self c done)
        · exact Or.inl h
      · exact Or.inr (List.mem_cons_of_mem c h)
    have hdisj' : ∀ c' ∈ cs, c' ∉ c :: done := by
      intro c' hc' hmem
      rcases List.mem_cons.mp hmem with h | h
      · exact (List.nodup_cons.mp hnodup).1 (h ▸ hc')
      · exact hdisj c' (List.mem_cons_of_mem c hc') h
    have := ih (c :: done) next' hcover' hdisj' (List.nodup_cons.mp hnodup).2 hfree
    show (foDrain results (c :: done) next).1 ++ foRun results cs (c :: done) next' =
      results.drop next
    rw [this]
    exact hdrain

/-- The `FuturesOrdered` delivery order is the push order: whatever
permutation of the task indices the completion schedule is, the delivered
sequence is exactly the task results in input order. -/
lemma futuresOrderedOutput_eq (results : List α) (schedule : List Nat)
    (hperm : schedule.Perm (List.range results.length)) :
    futuresOrderedOutput results schedule = results := by
  have hcover : ∀ i, 0 ≤ i → i < results.length → i ∈ schedule ∨ i ∈ ([] : List Nat) := by
    intro i _ hi
    exact Or.inl (hperm.symm.subset (List.mem_range.mpr hi))
  have hnodup : schedule.Nodup := hperm.symm.nodup (List.nodup_range results.length)
  have h := foRun_spec results schedule [] 0 hcover
    (fun c _ => List.not_mem_nil c) hnodup (fun _ => List.not_mem_nil 0)
  simpa [futuresOrderedOutput] using h

/-- `process_datasets_columns`: the sequence of `(dataset, columns)` pairs
passed to the consumer `f`, when the per-dataset column fetches complete
in the order given by `schedule`. -/
def process_datasets_columns (fetch : String → Except String (List Column))
    (now last_written : Int) (datasets : List String) (schedule : List Nat) :
    List (String × List Column) :=
  futuresOrderedOutput (datasets.map (datasetTask fetch now last_written)) schedule

lemma process_datasets_columns_eq_map (fetch : String → Except String (List Column))
    (now last_written : Int) (datasets : List String) (schedule : List Nat)
    (hperm : schedule.Perm (List.range datasets.length)) :
    process_datasets_columns fetch now last_written datasets schedule =
      datasets.map (datasetTask fetch now last_written) := by
  unfold process_datasets_columns
  exact futuresOrderedOutput_eq _ _ (by simpa using hperm)

/-- C5: for every sequence of datasets and every completion order of the
per-dataset fetches, the consumer receives exactly one `(dataset,
columns)` pair per input dataset, in input order: the delivered sequence
is the per-dataset task results mapped over the input sequence. -/
theorem ordered_aggregator_in_order (fetch : String → Except String (List Column))
    (now last_written : Int) (datasets : List String) (schedule : List Nat)
    (hperm : schedule.Perm (List.range datasets.length)) :
    process_datasets_columns fetch now last_written datasets schedule =
      datasets.map (datasetTask fetch now last_written) :=
  process_datasets_columns_eq_map fetch now last_written datasets schedule hperm

/-- Fetch for the C5 witness: dataset "a" has one fresh column, the
others none. -/
def c5Fetch : String → Except String (List Column) := fun d =>
  if d = "a" then Except.ok [⟨"c1", "k1", "t", "", false, 0⟩] else Except.ok []

/-- Witness for C5: three datasets whose fetches complete out of order
(second, third, first) are still delivered in input order. -/
theorem ordered_aggregator_in_order_witness :
    process_datasets_columns c5Fetch 0 1 ["a", "b", "c"] [1, 2, 0] =
      ["a", "b", "c"].map (datasetTask c5Fetch 0 1) :=
  ordered_aggregator_in_order c5Fetch 0 1 ["a", "b", "c"] [1, 2, 0] (by decide)

/-! ## Bounded parallel aggregator (`get_all_group_by_variants`)

`stream::iter(columns_ids).map(task).buffer_unordered(3)` keeps at most 3
tasks in flight, pulling the next queued task only when a slot is free,
and yields results in completion order.  We model the driver explicitly:
`pending` is the not-yet-started queue (in stream order), `inflight` the
started tasks, and `sched` picks which in-flight task completes at each
step when no slot can be filled. -/

/-- The async block mapped over `columns_ids` in
`get_all_group_by_variants`: fetch the column's variants and map a fetch
error to the empty list. -/
def variantsTask (fetch : String → Except String (List String)) (column_id : String) :
    String × List String :=
  match fetch column_id with
  | Except.ok variants => (column_id, variants)
  | Except.error _ => (column_id, [])

/-- One driver for `buffer_unordered(limit)`: fill a free slot from the
queue first; otherwise let the scheduled in-flight task complete and emit
its result.  Returns the emitted results in completion order. -/
def buRun (limit : Nat) (sched : Nat → Nat) :
    (pending : List α) → (inflight : List α) → (t : Nat) → List α
  | [], [], _ => []
  | [], y :: ys, t =>
    (y :: ys).get ⟨sched t % (y :: ys).length, Nat.mod_lt _ (Nat.succ_pos ys.length)⟩ ::
      buRun limit sched [] ((y :: ys).eraseIdx (sched t % (y :: ys).length)) (t + 1)
  | x :: xs, [], t =>
    if 0 < limit then buRun limit sched xs [x] (t + 1) else []
  | x :: xs, y :: ys, t =>
    if (y :: ys).length < limit then
      buRun limit sched xs (y :: ys ++ [x]) (t + 1)
    else
      (y :: ys).get ⟨sched t % (y :: ys).length, Nat.mod_lt _ (Nat.succ_pos ys.length)⟩ ::
        buRun limit sched (x :: xs)
          ((y :: ys).eraseIdx (sched t % (y :: ys).length)) (t + 1)
termination_by pending inflight _ => 2 * pending.length + inflight.length
decreasing_by
  · have hk : sched t % (y :: ys).length < (y :: ys).length :=
      Nat.mod_lt _ (Nat.succ_pos ys.length)
    have := List.length_eraseIdx_add_one hk
    simp only [List.length_cons, List.length_nil] at *
    omega
  · simp only [List.length_cons, List.length_nil]
    omega
  · simp only [List.length_cons, List.length_append, List.length_nil]
    omega
  · have hk : sched t % (y :: ys).length < (y :: ys).length :=
      Nat.mod_lt _ (Nat.succ_pos ys.length)
    have := List.length_eraseIdx_add_one hk
    simp only [List.length_cons] at *
    omega

/-- `buffer_unordered(limit)` over a fully queued stream. -/
def bufferUnordered (limit : Nat) (sched : Nat → Nat) (items : List α) : List α :=
  buRun limit sched items [] 0

/-- `get_all_group_by_variants`: the collected `(column_id, variants)`
pairs, in the completion order determined by `sched`. -/
def get_all_group_by_variants (fetch : String → Except String (List String))
    (columns_ids : List String) (sched : Nat → Nat) : List (String × List String) :=
  bufferUnordered 3 sched (columns_ids.map (variantsTask fetch))

lemma get_cons_eraseIdx_perm :
    ∀ (l : List α) (i : Nat) (h : i < l.length),
      (l.get ⟨i, h⟩ :: l.eraseIdx i).Perm l := by
  intro l
  induction l with
  | nil => intro i h; exact absurd h (by simp)
  | cons a l ih =>
    intro i h
    cases i with
    | zero => simp [List.eraseIdx]
    | succ i =>
      have hi : i < l.length := by simpa using h
      show ((l.get ⟨i, hi⟩) :: a :: l.eraseIdx i).Perm (a :: l)
      exact (List.Perm.swap a (l.get ⟨i, hi⟩) (l.eraseIdx i)).trans ((ih i hi).cons a)

/-- The results emitted by the `buffer_unordered` driver are a
permutation of the queued and in-flight tasks, for every completion
schedule. -/
lemma buRun_perm (limit : Nat) (hlimit : 0 < limit) (sched : Nat → Nat) :
    ∀ (pending inflight : List α) (t : Nat),
      (buRun limit sched pending inflight t).Perm (pending ++ inflight) := by
  have key : ∀ (m : Nat) (pending inflight : List α) (t : Nat),
      2 * pending.length + inflight.length ≤ m →
      (buRun limit sched pending inflight t).Perm (pending ++ inflight) := by
    intro m
    induction m with
    | zero =>
      intro pending inflight t hm
      have hp : pending = [] := List.eq_nil_of_length_eq_zero (by omega)
      have hi : inflight = [] := List.eq_nil_of_length_eq_zero (by omega)
      subst hp; subst hi
      rw [buRun]
      exact List.Perm.refl _
    | succ m ih =>
      intro pending inflight t hm
      have hstep : ∀ (pend : List α) (y : α) (ys : List α) (u : Nat),
          2 * pend.length + ys.length ≤ m →
          ((y :: ys).get ⟨sched u % (y :: ys).length, Nat.mod_lt _ (Nat.succ_pos ys.length)⟩ ::
            buRun limit sched pend
              ((y :: ys).eraseIdx (sched u % (y :: ys).length)) (u + 1)).Perm
            (pend ++ y :: ys) := by
        intro pend y ys u hb
        have hk : sched u % (y :: ys).length < (y :: ys).length :=
          Nat.mod_lt _ (Nat.succ_pos ys.length)
        have hlen := List.length_eraseIdx_add_one hk
        have hrec := ih pend ((y :: ys).eraseIdx (sched u % (y :: ys).length)) (u + 1)
          (by simp only [List.length_cons] at hlen ⊢; omega)
        refine (hrec.cons _).trans ?_
        refine List.Perm.trans List.perm_middle.symm ?_
        exact List.Perm.append_left pend (get_cons_eraseIdx_perm (y :: ys) _ hk)
      cases pending with
      | nil =>
        cases inflight with
        | nil => rw [buRun]; exact List.Perm.refl _
        | cons y ys =>
          rw [buRun]
          exact hstep [] y ys t
            (by simp only [List.length_cons, List.length_nil] at hm ⊢; omega)
      | cons x xs =>
        cases inflight with
        | nil =>
          rw [buRun, if_pos hlimit]
          have hrec := ih xs [x] (t + 1)
            (by simp only [List.length_cons, List.length_nil] at hm ⊢; omega)
          refine hrec.trans ?_
          simp only [List.append_nil]
          exact List.perm_append_singleton x xs
        | cons y ys =>
          by_cases hlt : (y :: ys).length < limit
          · rw [buRun, if_pos hlt]
            have hrec := ih xs (y :: ys ++ [x]) (t + 1)
              (by simp only [List.length_cons, List.length_append, List.length_nil] at hm ⊢
                  omega)
            refine hrec.trans ?_
            have hsing : ((xs ++ (y :: ys)) ++ [x]).Perm (x :: (xs ++ (y :: ys))) :=
              List.perm_append_singleton x (xs ++ (y :: ys))
            refine List.Perm.trans ?_ hsing
            rw [List.append_assoc]
          · rw [buRun, if_neg hlt]
            exact hstep (x :: xs) y ys t
              (by simp only [List.length_cons] at hm ⊢; omega)
  intro pending inflight t
  exact key (2 * pending.length + inflight.length) pending inflight t (Nat.le_refl _)

/-- The largest number of in-flight tasks the `buffer_unordered` driver
ever holds, over the whole run (the driver states mirror `buRun`). -/
def buRunMax (limit : Nat) (sched : Nat → Nat) :
    (pending : List α) → (inflight : List α) → (t : Nat) → Nat
  | [], [], _ => 0
  | [], y :: ys, t =>
    max (y :: ys).length
      (buRunMax limit sched [] ((y :: ys).eraseIdx (sched t % (y :: ys).length)) (t + 1))
  | x :: xs, [], t =>
    if 0 < limit then buRunMax limit sched xs [x] (t + 1) else 0
  | x :: xs, y :: ys, t =>
    if (y :: ys).length < limit then
      max (y :: ys).length (buRunMax limit sched xs (y :: ys ++ [x]) (t + 1))
    else
      max (y :: ys).length
        (buRunMax limit sched (x :: xs)
          ((y :: ys).eraseIdx (sched t % (y :: ys).length)) (t + 1))
termination_by pending inflight _ => 2 * pending.length + inflight.length
decreasing_by
  · have hk : sched t % (y :: ys).length < (y :: ys).length :=
      Nat.mod_lt _ (Nat.succ_pos ys.length)
    have := List.length_eraseIdx_add_one hk
    simp only [List.length_cons, List.length_nil] at *
    omega
  · simp only [List.length_cons, List.length_nil]
    omega
  · simp only [List.length_cons, List.length_append, List.length_nil]
    omega
  · have hk : sched t % (y :: ys).length < (y :: ys).length :=
      Nat.mod_lt _ (Nat.succ_pos ys.length)
    have := List.length_eraseIdx_add_one hk
    simp only [List.length_cons] at *
    omega

/-- The in-flight population never exceeds the limit: starting from a
state within the limit, every state of the run stays within it. -/
lemma buRunMax_le (limit : Nat) (sched : Nat → Nat) :
    ∀ (pending inflight : List α) (t : Nat),
      inflight.length ≤ limit →
      buRunMax limit sched pending inflight t ≤ limit := by
  have key : ∀ (m : Nat) (pending inflight : List α) (t : Nat),
      2 * pending.length + inflight.length ≤ m →
      inflight.length ≤ limit →
      buRunMax limit sched pending inflight t ≤ limit := by
    intro m
    induction m with
    | zero =>
      intro pending inflight t hm _
      have hp : pending = [] := List.eq_nil_of_length_eq_zero (by omega)
      have hi : inflight = [] := List.eq_nil_of_length_eq_zero (by omega)
      subst hp; subst hi
      rw [buRunMax]
      exact Nat.zero_le limit
    | succ m ih =>
      intro pending inflight t hm hbound
      have herase : ∀ (y : α) (ys : List α) (u : Nat),
          ((y :: ys).eraseIdx (sched u % (y :: ys).length)).length + 1 =
            (y :: ys).length := fun y ys u =>
        List.length_eraseIdx_add_one (Nat.mod_lt _ (Nat.succ_pos ys.length))
      cases pending with
      | nil =>
        cases inflight with
        | nil => rw [buRunMax]; exact Nat.zero_le limit
        | cons y ys =>
          rw [buRunMax]
          have he := herase y ys t
          refine max_le hbound (ih _ _ (t + 1) ?_ ?_)
          · simp only [List.length_cons, List.length_nil] at he hm ⊢
            omega
          · simp only [List.length_cons] at he hbound ⊢
            omega
      | cons x xs =>
        cases inflight with
        | nil =>
          rw [buRunMax]
          by_cases h0 : 0 < limit
          · rw [if_pos h0]
            refine ih _ _ (t + 1) ?_ (by simpa using h0)
            simp only [List.length_cons, List.length_nil] at hm ⊢
            omega
          · rw [if_neg h0]
            exact Nat.zero_le limit
        | cons y ys =>
          rw [buRunMax]
          have he := herase y ys t
          by_cases hlt : (y :: ys).length < limit
          · rw [if_pos hlt]
            refine max_le hbound (ih _ _ (t + 1) ?_ ?_)
            · simp only [List.length_cons, List.length_append, List.length_nil] at hm ⊢
              omega
            · simp only [List.length_cons, List.length_append, List.length_nil] at hlt ⊢
              omega
          · rw [if_neg hlt]
            refine max_le hbound (ih _ _ (t + 1) ?_ ?_)
            · simp only [List.length_cons] at he hm ⊢
              omega
            · simp only [List.length_cons] at he hbound ⊢
              omega
  intro pending inflight t hbound
  exact key (2 * pending.length + inflight.length) pending inflight t (Nat.le_refl _) hbound

/-- C7: for every input collection of column ids (including empty and
size-1) and every completion schedule, the multiset of column ids in the
returned `(column_id, variants)` pairs is exactly the input: every input
item appears, nothing extra appears, and a duplicate-free input yields a
duplicate-free output. -/
theorem bounded_aggregator_covers_input (fetch : String → Except String (List String))
    (columns_ids : List String) (sched : Nat → Nat) :
    ((get_all_group_by_variants fetch columns_ids sched).map Prod.fst).Perm columns_ids ∧
    (columns_ids.Nodup →
      ((get_all_group_by_variants fetch columns_ids sched).map Prod.fst).Nodup) := by
  have hperm : (get_all_group_by_variants fetch columns_ids sched).Perm
      (columns_ids.map (variantsTask fetch)) := by
    unfold get_all_group_by_variants bufferUnordered
    simpa using buRun_perm 3 (by omega) sched (columns_ids.map (variantsTask fetch)) [] 0
  have hcomp : Prod.fst ∘ variantsTask fetch = id := by
    funext c
    show (variantsTask fetch c).1 = c
    unfold variantsTask
    cases fetch c <;> rfl
  have hmap : (columns_ids.map (variantsTask fetch)).map Prod.fst = columns_ids := by
    rw [List.map_map, hcomp, List.map_id]
  have h1 : ((get_all_group_by_variants fetch columns_ids sched).map Prod.fst).Perm
      columns_ids := by
    have := hperm.map Prod.fst
    rw [hmap] at this
    exact this
  exact ⟨h1, fun hnd => h1.symm.nodup hnd⟩

/-- Fetch for the C7 witness: "a" succeeds, everything else fails. -/
def c7Fetch : String → Except String (List String) := fun c =>
  if c = "a" then Except.ok ["x"] else Except.error "boom"

/-- Witness for C7 on a two-element duplicate-free input. -/
theorem bounded_aggregator_covers_input_witness :
    ((get_all_group_by_variants c7Fetch ["a", "b"] (fun _ => 0)).map Prod.fst).Perm
      ["a", "b"] ∧
    ((get_all_group_by_variants c7Fetch ["a", "b"] (fun _ => 0)).map Prod.fst).Nodup :=
  ⟨(bounded_aggregator_covers_input c7Fetch ["a", "b"] (fun _ => 0)).1,
    (bounded_aggregator_covers_input c7Fetch ["a", "b"] (fun _ => 0)).2 (by decide)⟩

/-- C8: for every input and every completion schedule, the
`buffer_unordered(3)` driver of `get_all_group_by_variants` never has
more than 3 fetches in flight at any moment (a queued task starts only
when a slot is free). -/
theorem bounded_aggregator_concurrency_cap (fetch : String → Except String (List String))
    (columns_ids : List String) (sched : Nat → Nat) :
    buRunMax 3 sched (columns_ids.map (variantsTask fetch)) [] 0 ≤ 3 :=
  buRunMax_le 3 sched (columns_ids.map (variantsTask fetch)) [] 0 (by simp)

/-- C6: in both aggregators a failed per-item fetch never aborts the
batch: the failed item's outcome is the empty collection, delivered at
that item's position (in input order for the ordered aggregator, as that
item's pair for the bounded one), and every item's outcome is exactly its
own task's result, so sibling items are unaffected.  Both embeddings
return a total result list — the source functions have no error path for
the batch as a whole. -/
theorem per_item_failure_isolated
    (fetchC : String → Except String (List Column)) (now last_written : Int)
    (datasets : List String) (schedule : List Nat)
    (fetchV : String → Except String (List String)) (columns_ids : List String)
    (sched : Nat → Nat) (d c eC eV : String)
    (hperm : schedule.Perm (List.range datasets.length))
    (hfC : fetchC d = Except.error eC) (hfV : fetchV c = Except.error eV) :
    datasetTask fetchC now last_written d = (d, []) ∧
    process_datasets_columns fetchC now last_written datasets schedule =
      datasets.map (datasetTask fetchC now last_written) ∧
    variantsTask fetchV c = (c, []) ∧
    (get_all_group_by_variants fetchV columns_ids sched).Perm
      (columns_ids.map (variantsTask fetchV)) := by
  refine ⟨?_, process_datasets_columns_eq_map fetchC now last_written datasets schedule hperm,
    ?_, ?_⟩
  · unfold datasetTask
    rw [hfC]
  · unfold variantsTask
    rw [hfV]
  · unfold get_all_group_by_variants bufferUnordered
    simpa using buRun_perm 3 (by omega) sched (columns_ids.map (variantsTask fetchV)) [] 0

/-- Column fetch for the C6 witness: fails on dataset "bad". -/
def c6FetchC : String → Except String (List Column) := fun d =>
  if d = "bad" then Except.error "x" else Except.ok []

/-- Variant fetch for the C6 witness: fails on column "bad". -/
def c6FetchV : String → Except String (List String) := fun c =>
  if c = "bad" then Except.error "y" else Except.ok ["v"]

/-- Witness for C6 with a failing item in each aggregator. -/
theorem per_item_failure_isolated_witness :
    datasetTask c6FetchC 0 1 "bad" = ("bad", []) ∧
    process_datasets_columns c6FetchC 0 1 ["good", "bad"] [1, 0] =
      ["good", "bad"].map (datasetTask c6FetchC 0 1) ∧
    variantsTask c6FetchV "bad" = ("bad", []) ∧
    (get_all_group_by_variants c6FetchV ["bad"] (fun _ => 0)).Perm
      (["bad"].map (variantsTask c6FetchV)) :=
  per_item_failure_isolated c6FetchC 0 1 ["good", "bad"] [1, 0] c6FetchV ["bad"]
    (fun _ => 0) "bad" "bad" "x" "y" (by decide) (by rfl) (by rfl)

/-! ## Authorization check (`Authorizations::has_required_access`) -/

/-- `NameAndSlug` from `honeycomb.rs`. -/
structure NameAndSlug where
  name : String
  slug : String
deriving DecidableEq, Repr

/-- `Authorizations` from `honeycomb.rs`; the `api_key_access` `HashMap`
is modelled as an association list with unique keys looked up by
`List.lookup`. -/
structure Authorizations where
  api_key_access : List (String × Bool)
  environment : NameAndSlug
  team : NameAndSlug
deriving DecidableEq, Repr

/-- `has_required_access`: every required access type must map to `true`;
a missing key counts as `false` (`unwrap_or(&false)`). -/
def has_required_access (auth : Authorizations) (access_types : List String) : Bool :=
  access_types.all fun t => (auth.api_key_access.lookup t).getD false

/-- C9: `has_required_access` returns true iff each listed access-type
name maps to `true` in `api_key_access` (an absent name counts as
`false`); in particular it returns true for the empty list. -/
theorem has_required_access_spec (auth : Authorizations) (access_types : List String) :
    (has_required_access auth access_types = true ↔
      ∀ t ∈ access_types, auth.api_key_access.lookup t = some true) ∧
    has_required_access auth [] = true := by
  refine ⟨?_, rfl⟩
  unfold has_required_access
  rw [List.all_eq_true]
  constructor
  · intro h t ht
    have hg := h t ht
    cases hl : auth.api_key_access.lookup t with
    | none => rw [hl] at hg; exact absurd hg (by simp)
    | some b =>
      rw [hl] at hg
      simp only [Option.getD_some] at hg
      rw [hg]
  · intro h t ht
    rw [h t ht]
    rfl

/-- Authorizations value for the C9 witness. -/
def c9Auth : Authorizations :=
  ⟨[("environments", true), ("queries", true)], ⟨"env", "env"⟩, ⟨"team", "team"⟩⟩

/-- Witness for C9 at a concrete authorizations value. -/
theorem has_required_access_spec_witness :
    (has_required_access c9Auth ["environments", "queries"] = true ↔
      ∀ t ∈ ["environments", "queries"], c9Auth.api_key_access.lookup t = some true) ∧
    has_required_access c9Auth [] = true :=
  has_required_access_spec c9Auth ["environments", "queries"]

/-! ## Dataset slug filter (`get_dataset_slugs`) -/

/-- `Dataset` from `honeycomb.rs`; `last_written_at` is an optional UTC
timestamp, modelled in whole seconds. -/
structure Dataset where
  slug : String
  last_written_at : Option Int
deriving DecidableEq, Repr

/-- `get_dataset_slugs`: keep datasets written to in the last
`last_written` days (a missing `last_written_at` defaults to `now`),
restricted to the optional include set, and return the slugs sorted
(`Vec::sort`, ascending). -/
def get_dataset_slugs (now last_written : Int)
    (include_datasets : Option (List String)) (datasets : List Dataset) : List String :=
  let inc_datasets := include_datasets.getD []
  let slugs := datasets.filterMap fun d =>
    if numDays (now - d.last_written_at.getD now) < last_written then
      if inc_datasets.isEmpty || inc_datasets.contains d.slug then some d.slug else none
    else none
  List.insertionSort (· ≤ ·) slugs

/-- C10: for every input the returned slugs are sorted ascending; and a
dataset with no `last_written_at` is treated as written just now (age 0
days), so it is included whenever `last_written ≥ 1` and it passes the
optional include filter. -/
theorem get_dataset_slugs_sorted_fresh_default :
    (∀ (now last_written : Int) (include_datasets : Option (List String))
      (datasets : List Dataset),
      (get_dataset_slugs now last_written include_datasets datasets).Sorted (· ≤ ·)) ∧
    (∀ (now last_written : Int) (include_datasets : Option (List String))
      (datasets : List Dataset) (d : Dataset),
      d ∈ datasets → d.last_written_at = none → 1 ≤ last_written →
      ((include_datasets.getD []).isEmpty = true ∨
        (include_datasets.getD []).contains d.slug = true) →
      d.slug ∈ get_dataset_slugs now last_written include_datasets datasets) := by
  constructor
  · intro now last_written include_datasets datasets
    exact List.sorted_insertionSort (· ≤ ·) _
  · intro now last_written include_datasets datasets d hd hnone hlw hinc
    unfold get_dataset_slugs
    rw [List.Perm.mem_iff (List.perm_insertionSort (· ≤ ·) _)]
    rw [List.mem_filterMap]
    refine ⟨d, hd, ?_⟩
    have hage : numDays (now - (d.last_written_at.getD now)) < last_written := by
      rw [hnone]
      simp only [Option.getD_none, sub_self]
      have h0 : numDays 0 = 0 := rfl
      rw [h0]
      omega
    rw [if_pos hage, if_pos ?_]
    rcases hinc with h | h
    · rw [h]
      rfl
    · rw [h]
      exact Bool.or_true _

/-- Dataset list for the C10 witness. -/
def c10Datasets : List Dataset := [⟨"b", none⟩, ⟨"a", some 0⟩]

/-- Witness for C10: a dataset with no `last_written_at`, include filter
absent, `last_written = 1`. -/
theorem get_dataset_slugs_sorted_fresh_default_witness :
    (get_dataset_slugs 1000 1 none c10Datasets).Sorted (· ≤ ·) ∧
    "b" ∈ get_dataset_slugs 1000 1 none c10Datasets :=
  ⟨get_dataset_slugs_sorted_fresh_default.1 1000 1 none c10Datasets,
    get_dataset_slugs_sorted_fresh_default.2 1000 1 none c10Datasets ⟨"b", none⟩
      (by decide) rfl (by decide) (Or.inl rfl)⟩

end Honeycomb
